import Mathlib

/-!
# Verification of the PDFCrawler repository

Shallow embedding of the two components of the repository
(`src/crawler.py`: `RecursiveUrlFetcher`; `src/file_downloader.py`:
`FileDownloader`) together with a faithful model of the parts of the
`urllib.parse` standard library that the crawler calls (`urlparse`,
`urljoin`) and of the retry behaviour of the `urllib3`-backed download
session configured in `requests_retry_session`.

Modelling conventions:
* Python strings are Lean `String`s; character-level work is done on
  `String.data : List Char`.
* `str.lower()` is modelled as ASCII lowercasing (all strings handled by
  the program are ASCII).
* The network and the filesystem are oracles passed in explicitly; the
  HTML parser (`BeautifulSoup`) is modelled by the anchor-href list it
  yields, `none` standing for a parser exception.
* Python `set(...)` iteration is modelled by first-occurrence
  deduplication (`pyDedup`); every concrete run used in a theorem keeps
  each iterated set at no more than one element, so the statements do not
  depend on this canonical choice of order.
-/

namespace PDFCrawler

/-! ## Character and string helpers (Python `str` operations) -/

/-- ASCII lowercasing of one character, as `str.lower()` does on ASCII input. -/
def pyLowerChar : Char → Char
  | 'A' => 'a' | 'B' => 'b' | 'C' => 'c' | 'D' => 'd' | 'E' => 'e' | 'F' => 'f'
  | 'G' => 'g' | 'H' => 'h' | 'I' => 'i' | 'J' => 'j' | 'K' => 'k' | 'L' => 'l'
  | 'M' => 'm' | 'N' => 'n' | 'O' => 'o' | 'P' => 'p' | 'Q' => 'q' | 'R' => 'r'
  | 'S' => 's' | 'T' => 't' | 'U' => 'u' | 'V' => 'v' | 'W' => 'w' | 'X' => 'x'
  | 'Y' => 'y' | 'Z' => 'z'
  | c => c

/-- `s.lower()` on an ASCII string. -/
def pyLower (s : String) : String := ⟨s.data.map pyLowerChar⟩

/-- `needle.isPrefixOf hay` written out by recursion, so that kernel
evaluation of concrete runs is cheap. -/
def listStartsWith : List Char → List Char → Bool
  | _, [] => true
  | [], _ :: _ => false
  | c :: cs, d :: ds => c = d && listStartsWith cs ds

/-- Contiguous-substring test on character lists. -/
def listHasInfix (hay needle : List Char) : Bool :=
  match hay with
  | [] => needle.isEmpty
  | _ :: rest => listStartsWith hay needle || listHasInfix rest needle

/-- Python's substring test `needle in hay`. -/
def pyIn (needle hay : String) : Bool := listHasInfix hay.data needle.data

/-- Python's `s.endswith(t)`. -/
def pyEndsWith (s t : String) : Bool := t.data.isSuffixOf s.data

/-- First-occurrence deduplication: the canonical iteration order we use
for Python `set(...)` values. -/
def pyDedup (l : List String) : List String :=
  l.foldl (fun acc u => if acc.contains u then acc else acc ++ [u]) []

/-- `url.split("/")[-1]`: everything after the last `'/'` (the whole string
if there is no `'/'`). -/
def pyBasename (s : String) : String :=
  ⟨(s.data.reverse.takeWhile (fun c => c ≠ '/')).reverse⟩

/-! ## Model of `urllib.parse` (`urlparse`, `urljoin`)

Translated from CPython 3.11 `urllib/parse.py` (`urlsplit`, `urlparse`,
`_splitparams`, `_splitnetloc`, `urlunsplit`, `urlunparse`, `urljoin`). -/

/-- Characters valid in scheme names (`scheme_chars`). -/
def schemeChar (c : Char) : Bool :=
  c.isAlpha || c.isDigit || c = '+' || c = '-' || c = '.'

/-- `_UNSAFE_URL_BYTES_TO_REMOVE`: tab, CR and LF are stripped by `urlsplit`. -/
def whatwgStripChar (c : Char) : Bool := c = '\t' || c = '\r' || c = '\n'

def whatwgClean (l : List Char) : List Char := l.filter (fun c => !whatwgStripChar c)

/-- The condition under which `urlsplit` recognises `url[:i]` as a scheme:
nonempty, leading ASCII letter, all characters in `scheme_chars`. -/
def validScheme : List Char → Bool
  | [] => false
  | c :: cs => c.isAlpha && (c :: cs).all schemeChar

/-- Scheme extraction of `urlsplit`: the text before the first `':'`, if it
is a valid scheme, lowercased; `none` if no scheme is recognised. -/
def splitScheme (l : List Char) : Option (List Char × List Char) :=
  let pre := l.takeWhile (fun c => c ≠ ':')
  if pre.length < l.length && validScheme pre then
    some (pre.map pyLowerChar, l.drop (pre.length + 1))
  else none

/-- Delimiters ending the netloc in `_splitnetloc`. -/
def netlocDelim (c : Char) : Bool := c = '/' || c = '?' || c = '#'

/-- `_splitnetloc` applied when the remaining url starts with `"//"`. -/
def splitNetloc : List Char → List Char × List Char
  | '/' :: '/' :: rest =>
    (rest.takeWhile (fun c => !netlocDelim c), rest.dropWhile (fun c => !netlocDelim c))
  | l => ([], l)

structure UrlSplitResult where
  scheme : List Char
  netloc : List Char
  path : List Char
  query : List Char
  fragment : List Char
  deriving Repr, DecidableEq

/-- `urlsplit(url, scheme=deflt)` (with `allow_fragments=True`). -/
def urlsplitModel (deflt url : List Char) : UrlSplitResult :=
  let l := whatwgClean url
  let sr : List Char × List Char :=
    match splitScheme l with
    | some p => p
    | none => (whatwgClean deflt, l)
  let nr := splitNetloc sr.2
  let beforeFrag := nr.2.takeWhile (fun c => c ≠ '#')
  let fragment := nr.2.drop (beforeFrag.length + 1)
  let path := beforeFrag.takeWhile (fun c => c ≠ '?')
  let query := beforeFrag.drop (path.length + 1)
  ⟨sr.1, nr.1, path, query, fragment⟩

/-- `uses_params` from `urllib.parse`. -/
def usesParams (s : List Char) : Bool :=
  ((["", "ftp", "hdl", "prospero", "http", "imap", "https", "shttp", "rtsp",
     "rtspu", "sip", "sips", "mms", "sftp", "tel"].map String.data)).contains s

/-- `uses_relative` from `urllib.parse`. -/
def usesRelative (s : List Char) : Bool :=
  ((["", "ftp", "http", "gopher", "nntp", "imap", "wais", "file", "https",
     "shttp", "mms", "prospero", "rtsp", "rtspu", "sftp", "svn", "svn+ssh",
     "ws", "wss"].map String.data)).contains s

/-- `uses_netloc` from `urllib.parse`. -/
def usesNetloc (s : List Char) : Bool :=
  ((["", "ftp", "http", "gopher", "nntp", "telnet", "imap", "wais", "file",
     "mms", "https", "shttp", "snews", "prospero", "rtsp", "rtspu", "rsync",
     "svn", "svn+ssh", "sftp", "nfs", "git", "git+ssh", "ws",
     "wss"].map String.data)).contains s

/-- `_splitparams`: split `;params` off the last path segment (off the whole
path when it contains no `'/'`). -/
def splitParams (l : List Char) : List Char × List Char :=
  if l.contains '/' then
    let seg := (l.reverse.takeWhile (fun c => c ≠ '/')).reverse
    if seg.contains ';' then
      let kept := seg.takeWhile (fun c => c ≠ ';')
      (l.take (l.length - seg.length) ++ kept, seg.drop (kept.length + 1))
    else (l, [])
  else
    let kept := l.takeWhile (fun c => c ≠ ';')
    (kept, l.drop (kept.length + 1))

structure UrlParseResult where
  scheme : List Char
  netloc : List Char
  path : List Char
  params : List Char
  query : List Char
  fragment : List Char
  deriving Repr, DecidableEq

/-- `urlparse(url, scheme=deflt)`: `urlsplit` plus the params split. -/
def urlparseModel (deflt url : List Char) : UrlParseResult :=
  let s := urlsplitModel deflt url
  if usesParams s.scheme && s.path.contains ';' then
    let pp := splitParams s.path
    ⟨s.scheme, s.netloc, pp.1, pp.2, s.query, s.fragment⟩
  else ⟨s.scheme, s.netloc, s.path, [], s.query, s.fragment⟩

/-- The path component that `urlparse` computes from the scheme and the
post-netloc remainder: fragment strip, query strip, then the params split
when the scheme uses params. Restates the corresponding steps of
`urlsplitModel`/`urlparseModel` as a standalone function for the parsing
lemmas. -/
def pathFrom (s rest2 : List Char) : List Char :=
  let path0 := (rest2.takeWhile (fun c => c ≠ '#')).takeWhile (fun c => c ≠ '?')
  if usesParams s && path0.contains ';' then (splitParams path0).1 else path0

/-- The crawler's URL normalisation
(`f"{parsed_url.scheme}://{parsed_url.netloc}{parsed_url.path}"`,
`src/crawler.py` lines 79–82 and 164–166). -/
def normalizeUrl (u : String) : String :=
  let p := urlparseModel [] u.data
  ⟨p.scheme ++ [':', '/', '/'] ++ p.netloc ++ p.path⟩

/-- `urlunsplit`. -/
def urlunsplitModel (scheme netloc path query fragment : List Char) : List Char :=
  let url :=
    if netloc ≠ [] || (scheme ≠ [] && usesNetloc scheme && path.take 2 ≠ ['/', '/']) then
      let url2 := if path ≠ [] && path.take 1 ≠ ['/'] then '/' :: path else path
      '/' :: '/' :: (netloc ++ url2)
    else path
  let url := if scheme ≠ [] then scheme ++ ':' :: url else url
  let url := if query ≠ [] then url ++ '?' :: query else url
  if fragment ≠ [] then url ++ '#' :: fragment else url

/-- `urlunparse`. -/
def urlunparseModel (p : UrlParseResult) : List Char :=
  let path := if p.params ≠ [] then p.path ++ ';' :: p.params else p.path
  urlunsplitModel p.scheme p.netloc path p.query p.fragment

/-- Python `str.split('/')` on a character list (always a nonempty list). -/
def splitOnSlash : List Char → List (List Char)
  | [] => [[]]
  | c :: rest =>
    match splitOnSlash rest with
    | [] => [[]]
    | h :: t => if c = '/' then [] :: h :: t else (c :: h) :: t

/-- Python `'/'.join(...)`. -/
def joinSlash : List (List Char) → List Char
  | [] => []
  | [a] => a
  | a :: b :: rest => a ++ '/' :: joinSlash (b :: rest)

/-- `segments[1:-1] = filter(None, segments[1:-1])` in `urljoin`. -/
def filterMiddle : List (List Char) → List (List Char)
  | [] => []
  | a :: rest =>
    a :: (rest.dropLast.filter (fun s => s ≠ []) ++ rest.getLast?.toList)

/-- `resolved_path` accumulation of `urljoin` (with `..` popping and `.`
skipping; an `..` on an empty stack is ignored). -/
def resolveSegments (segs : List (List Char)) : List (List Char) :=
  segs.foldl
    (fun acc seg =>
      if seg = ['.', '.'] then acc.dropLast
      else if seg = ['.'] then acc
      else acc ++ [seg]) []

/-- `urljoin(base, url)` (with `allow_fragments=True`). -/
def urljoinModel (base url : String) : String :=
  if base = "" then url
  else if url = "" then base
  else
    let b := urlparseModel [] base.data
    let u := urlparseModel b.scheme url.data
    if u.scheme ≠ b.scheme || !usesRelative u.scheme then url
    else if usesNetloc u.scheme && u.netloc ≠ [] then
      ⟨urlunparseModel u⟩
    else
      let netloc := if usesNetloc u.scheme then b.netloc else u.netloc
      if u.path = [] && u.params = [] then
        let query := if u.query = [] then b.query else u.query
        ⟨urlunparseModel ⟨u.scheme, netloc, b.path, b.params, query, u.fragment⟩⟩
      else
        let baseParts0 := splitOnSlash b.path
        let baseParts :=
          if baseParts0.getLast? ≠ some [] then baseParts0.dropLast else baseParts0
        let segments :=
          if u.path.take 1 = ['/'] then splitOnSlash u.path
          else filterMiddle (baseParts ++ splitOnSlash u.path)
        let resolved := resolveSegments segments
        let resolved :=
          if segments.getLast? = some ['.'] || segments.getLast? = some ['.', '.'] then
            resolved ++ [[]]
          else resolved
        let joined := joinSlash resolved
        let path := if joined = [] then ['/'] else joined
        ⟨urlunparseModel ⟨u.scheme, netloc, path, u.params, u.query, u.fragment⟩⟩

/-! ## Link Discovery Traversal (`src/crawler.py`, `RecursiveUrlFetcher`) -/

/-- The hard-coded target-domain marker of `recursive_url_fetcher`
(`src/crawler.py` lines 167–171). -/
def domainMarker : String := "www.cncbinternational.com"

/-- `contains_any` (`src/crawler.py` lines 22–32). -/
def contains_any (s : String) (substrings : List String) : Bool :=
  substrings.any (fun substr => pyIn substr s)

/-- Configuration of `RecursiveUrlFetcher` as used by the crawl
(`base_url` for `urljoin`, `removal_strs` for the denylist). -/
structure CrawlConfig where
  base_url : String
  removal_strs : List String

/-- The mutable crawl state: `traversed_url_list` and `all_pdf_links`. -/
structure CrawlState where
  traversed : List String
  all_pdf_links : List String
  deriving Repr, DecidableEq

/-- Network oracle. `fetch u` models `requests.get(u, allow_redirects=True,
timeout=5)` followed by `BeautifulSoup(response.text, "html.parser")`:
`none` is a raised `requests` exception; `some (status, parsed)` carries the
status code, and `parsed` is `none` when `BeautifulSoup` raises
(`AttributeError`) and otherwise the list of `anchor.get("href")` values of
the parsed page (`none` entries for anchors without an `href`).
`resolve u` models the `requests.get(url, allow_redirects=True, timeout=10)`
of `filter_unique_destinations`: `none` is a raised exception, `some f` the
final `response.url` after redirects. -/
structure Net where
  fetch : String → Option (Nat × Option (List (Option String)))
  resolve : String → Option String

/-- Dedup of `Option String` values, for `href_list = set([...])`. -/
def pyDedupOpt (l : List (Option String)) : List (Option String) :=
  l.foldl (fun acc u => if acc.contains u then acc else acc ++ [u]) []

/-- One iteration of the href-processing loop of `recursive_url_fetcher`
(lines 162–175): skip absent/empty hrefs and hrefs containing `'#'`, join
with the base URL, normalise, and keep the result when it contains the
domain marker and is not in the traversed list. -/
def extractStep (cfg : CrawlConfig) (traversed : List String)
    (acc : List String) (link : Option String) : List String :=
  match link with
  | none => acc
  | some l =>
    if l ≠ "" && !pyIn "#" l then
      let normalized := normalizeUrl (urljoinModel cfg.base_url l)
      if pyIn domainMarker normalized && !traversed.contains normalized then
        acc ++ [normalized]
      else acc
    else acc

/-- The href-processing loop of `recursive_url_fetcher` (lines 158–175),
over the deduplicated href set of one parsed page. -/
def extractLinks (cfg : CrawlConfig) (traversed : List String)
    (anchors : List (Option String)) : List String :=
  (pyDedupOpt anchors).foldl (extractStep cfg traversed) []

/-- Accumulator of the fetch loop of one round: the traversed list, the
(function-local) `soup` binding, the `updated_link_set` built so far and the
list of URLs actually fetched (one entry per `requests.get` issued by the
loop). -/
structure RoundAcc where
  traversed : List String
  soup : Option (List (Option String))
  updated : List String
  fetchLog : List String
  deriving Repr, DecidableEq

/-- One iteration of the fetch loop (`src/crawler.py` lines 140–183).
Returns `Except.error ()` for the uncaught `UnboundLocalError` that occurs
when `BeautifulSoup` raised and `soup` was never bound in this call frame
(line 156 references `soup` outside the inner `try`). -/
def fetchStep (cfg : CrawlConfig) (net : Net) (acc : RoundAcc) (curr_url : String) :
    Except Unit RoundAcc :=
  if acc.traversed.contains curr_url then Except.ok acc
  else
    let traversed := acc.traversed ++ [curr_url]
    let fetchLog := acc.fetchLog ++ [curr_url]
    match net.fetch curr_url with
    | none => Except.ok { acc with traversed := traversed, fetchLog := fetchLog }
    | some (status, parsed) =>
      if status = 200 then
        let soup : Option (List (Option String)) :=
          match parsed with
          | some anchors => some anchors
          | none => acc.soup
        match soup with
        | none => Except.error ()
        | some anchor_list =>
          let updated :=
            if anchor_list.length > 0 then
              acc.updated ++ extractLinks cfg traversed anchor_list
            else acc.updated
          Except.ok ⟨traversed, soup, updated, fetchLog⟩
      else Except.ok { acc with traversed := traversed, fetchLog := fetchLog }

/-- Fold of `fetchStep` over the round's working set. -/
def fetchLoop (cfg : CrawlConfig) (net : Net) (acc : RoundAcc) :
    List String → Except Unit RoundAcc
  | [] => Except.ok acc
  | u :: rest =>
    match fetchStep cfg net acc u with
    | Except.error e => Except.error e
    | Except.ok acc' => fetchLoop cfg net acc' rest

/-- Denylist pre-filter (line 121–127):
`set([url for url in urls if not contains_any(url.lower(), removal_strs)])`. -/
def pruneDenylist (removal_strs : List String) (urls : List String) : List String :=
  pyDedup (urls.filter (fun url => !contains_any (pyLower url) removal_strs))

/-- Visited filter (line 129):
`set([url for url in urls if url not in traversed_url_list])`. -/
def pruneVisited (traversed urls : List String) : List String :=
  pyDedup (urls.filter (fun url => !traversed.contains url))

/-- One iteration of the PDF-collection loop (lines 131–137): append the
URL to `all_pdf_links` when it ends (case-insensitively) in `.pdf` and is
not already collected. -/
def collectPdfStep (pdf : List String) (url : String) : List String :=
  if pyEndsWith (pyLower url) ".pdf" && !pdf.contains url then pdf ++ [url]
  else pdf

/-- The PDF-collection loop (lines 131–137). -/
def collectPdfs (all_pdf_links urls : List String) : List String :=
  urls.foldl collectPdfStep all_pdf_links

/-- Removal of collected PDFs from the working set (line 138):
`set([url for url in urls if url not in all_pdf_links])`. -/
def removePdf (all_pdf_links urls : List String) : List String :=
  pyDedup (urls.filter (fun url => !all_pdf_links.contains url))

/-- `filter_unique_destinations` (`src/crawler.py` lines 59–87): follow each
URL's redirects, normalise the final URL and deduplicate; URLs whose GET
raises are dropped. -/
def filter_unique_destinations (resolve : String → Option String)
    (urls : List String) : List String :=
  urls.foldl
    (fun unique_destinations url =>
      match resolve url with
      | none => unique_destinations
      | some final_url =>
        let normalized_url := normalizeUrl final_url
        if !unique_destinations.contains normalized_url then
          unique_destinations ++ [normalized_url]
        else unique_destinations)
    []

/-- One full round of `recursive_url_fetcher` on a nonempty frontier: the
filters, the PDF collection, the fetch loop, and the construction of the
next frontier. Returns the new state, the fetch log of the round, and the
next round's frontier. -/
def crawlRoundCore (cfg : CrawlConfig) (net : Net) (st : CrawlState)
    (urls : List String) : Except Unit (CrawlState × List String × List String) :=
  let u1 := pruneDenylist cfg.removal_strs urls
  let u2 := pruneVisited st.traversed u1
  let pdf := collectPdfs st.all_pdf_links u2
  let u3 := removePdf pdf u2
  match fetchLoop cfg net ⟨st.traversed, none, [], []⟩ u3 with
  | Except.error e => Except.error e
  | Except.ok acc =>
    let candidates := pyDedup acc.updated
    let uniq := filter_unique_destinations net.resolve candidates
    Except.ok (⟨acc.traversed, pdf⟩, acc.fetchLog, pyDedup uniq)

/-- Errors that abort or truncate a modelled crawl: `crash` is the uncaught
`UnboundLocalError`; `fuel` marks that the recursion depth bound of the
model was reached (the Python recursion is unbounded). -/
inductive CrawlErr where
  | crash
  | fuel
  deriving Repr, DecidableEq

/-- `recursive_url_fetcher` (`src/crawler.py` lines 89–190), modelled with
explicit recursion depth. Returns the final state and the full fetch log. -/
def crawl (cfg : CrawlConfig) (net : Net) :
    Nat → CrawlState → List String → Except CrawlErr (CrawlState × List String)
  | 0, _, _ => Except.error CrawlErr.fuel
  | Nat.succ fuel, st, urls =>
    if urls.length ≤ 0 then Except.ok (st, [])
    else
      match crawlRoundCore cfg net st urls with
      | Except.error _ => Except.error CrawlErr.crash
      | Except.ok (st', log, next) =>
        match crawl cfg net fuel st' next with
        | Except.error e => Except.error e
        | Except.ok (stF, logF) => Except.ok (stF, log ++ logF)

/-! ## File Materializer (`src/file_downloader.py`, `FileDownloader`) -/

/-- A character of the class `[a-zA-Z0-9_-]`. -/
def wordChar (c : Char) : Bool := c.isAlpha || c.isDigit || c = '_' || c = '-'

/-- A whole character list matching `[a-zA-Z0-9_-]+\.pdf` exactly: at least
one class character followed by the four literal characters `.pdf`. -/
def pdfNameCore (l : List Char) : Bool :=
  decide (5 ≤ l.length) && (l.drop (l.length - 4) == ['.', 'p', 'd', 'f'])
    && (l.take (l.length - 4)).all wordChar

/-- `validate_pdf_filename` (`src/file_downloader.py` lines 80–91):
`bool(re.match(r"^[a-zA-Z0-9_-]+\.pdf$", filename))`. `re.match` anchors at
the start; `$` matches at the end of the string or just before a newline at
the end of the string, so the regex also accepts a single trailing `'\n'`. -/
def validate_pdf_filename (filename : String) : Bool :=
  let l := filename.data
  let body := if l.getLast? = some '\n' then l.dropLast else l
  pdfNameCore body

/-- The filename pattern as the specification words it: one or more
characters drawn from letters/digits/underscore/hyphen followed by the
literal `.pdf`, anchored at start and end (no trailing-newline allowance).
Modelled from the spec for comparison with `validate_pdf_filename`. -/
def specPdfName (filename : String) : Bool := pdfNameCore filename.data

/-- One download record (`{original_url, file_name, dl_status}`). -/
structure DlRecord where
  original_url : String
  file_name : String
  dl_status : Bool
  deriving Repr, DecidableEq

/-- Outcome of one `download_file` call, as an oracle value: whether the
call returned `True`, and whether it left a file at the destination path
(`open(filename, "wb")` creates the file even when the download then
fails; an exception raised before the `open` leaves no file). -/
structure DlOutcome where
  success : Bool
  created : Bool
  deriving Repr, DecidableEq

/-- State threaded through `download_all_files`: the `f_name_cnt` counter,
the set of existing file paths, the `result_json` list, and the list of
`download_file` calls issued (one entry `(url, full_path)` per call). -/
structure DlState where
  cnt : Nat
  fs : List String
  results : List DlRecord
  calls : List (String × String)
  deriving Repr, DecidableEq

/-- One iteration of `download_all_files` (`src/file_downloader.py` lines
109–133): take the URL's basename; skip the URL entirely when
`pdf_files/<basename>` already exists; otherwise replace an invalid
basename by `tmp_fn_<cnt>.pdf`, call `download_file`, and append a record. -/
def downloadStep (destination : String) (dl : String → String → DlOutcome)
    (st : DlState) (file_url : String) : DlState :=
  let f_name := pyBasename file_url
  if st.fs.contains ("pdf_files/" ++ f_name) then st
  else
    let resolved :=
      if validate_pdf_filename f_name then (f_name, st.cnt)
      else ("tmp_fn_" ++ toString st.cnt ++ ".pdf", st.cnt + 1)
    let full_path := destination ++ "/" ++ resolved.1
    let out := dl file_url full_path
    { cnt := resolved.2
      fs := if out.created then full_path :: st.fs else st.fs
      results := st.results ++ [⟨file_url, resolved.1, out.success⟩]
      calls := st.calls ++ [(file_url, full_path)] }

/-- `download_all_files` (`src/file_downloader.py` lines 93–134) over an
initial filesystem `fs0`. -/
def download_all_files (destination : String) (dl : String → String → DlOutcome)
    (fs0 : List String) (file_url_arr : List String) : DlState :=
  file_url_arr.foldl (downloadStep destination dl) ⟨0, fs0, [], []⟩

/-! ### Retry behaviour of the download session

`requests_retry_session` (`src/file_downloader.py` lines 19–37) mounts a
`urllib3 Retry(total=3, read=3, connect=3, backoff_factor=0.3,
status_forcelist=(500, 502, 503, 504))` adapter. Under that policy a
request whose response status is in the forcelist is retried until the
retry budget (3 retries after the initial request) is exhausted; exhaustion
raises `MaxRetryError`, surfaced by `requests` as a `RequestException`. -/

/-- `status_forcelist=(500, 502, 503, 504)`. -/
def statusForcelist (s : Nat) : Bool := s = 500 || s = 502 || s = 503 || s = 504

/-- The attempt loop of the mounted retry adapter: `statuses i` is the
response status of the `i`-th HTTP attempt (0-based). Returns the number of
attempts made and `some finalStatus`, or `none` when the retry budget is
exhausted (`MaxRetryError`). Second argument: attempt index; third:
remaining retries. -/
def sessionAttempts (statuses : Nat → Nat) : Nat → Nat → Nat × Option Nat
  | idx, 0 =>
    if statusForcelist (statuses idx) then (idx + 1, none)
    else (idx + 1, some (statuses idx))
  | idx, Nat.succ r =>
    if statusForcelist (statuses idx) then sessionAttempts statuses (idx + 1) r
    else (idx + 1, some (statuses idx))

/-- `session.get` through `requests_retry_session()`: up to 1 + 3 attempts. -/
def session_get (statuses : Nat → Nat) : Nat × Option Nat :=
  sessionAttempts statuses 0 3

/-- The urllib3 backoff before retry number `n` (1-based), with
`backoff_factor=0.3` modelled as the rational `3/10`: zero before the first
retry, then `0.3 * 2^(n-1)`. -/
def get_backoff_time (n : Nat) : ℚ :=
  if n ≤ 1 then 0 else (3 / 10) * 2 ^ (n - 1)

/-- `download_file` (`src/file_downloader.py` lines 39–78) for a URL whose
attempts get statuses `statuses`: a `RequestException` (including retry
exhaustion) or an error status via `raise_for_status()` yields `False`;
otherwise the result is the file-write outcome (`os.path.exists and
os.path.getsize > 0`), given by the oracle `writeOk`. -/
def download_file (statuses : Nat → Nat) (writeOk : Bool) : Bool :=
  match (session_get statuses).2 with
  | none => false
  | some s => if 400 ≤ s then false else writeOk

/-! ## Concrete fixtures used by counterexamples and witnesses -/

/-- The configured base URL (`main.py`: `BASE_URL`). -/
def exBase : String := "https://www.cncbinternational.com"

/-- A crawl configuration with the configured base URL and an empty denylist. -/
def cfgEx : CrawlConfig := ⟨exBase, []⟩

/-- A seed page on the target domain. -/
def exHome : String := "https://www.cncbinternational.com/home"

/-- An on-domain page linked from the seed page. -/
def exOnX : String := "https://www.cncbinternational.com/x"

/-- An off-domain PDF URL: its host (`evil.example`) does not contain the
target-domain marker, and the marker occurs nowhere in the URL. -/
def exEvil : String := "https://evil.example/a.pdf"

/-- Network in which the seed page links to `exOnX`, whose redirects
resolve to the off-domain URL `exEvil`. -/
def netC1 : Net where
  fetch u := if u = exHome then some (200, some [some exOnX]) else none
  resolve u := if u = exOnX then some exEvil else none

/-- Network in which the seed page links to `exOnX`, whose redirects
resolve back to the already-visited seed page. -/
def netC2 : Net where
  fetch u := if u = exHome then some (200, some [some exOnX]) else none
  resolve u := if u = exOnX then some exHome else none

/-- Network in which fetching the seed page returns HTTP 200 but parsing
the body raises. -/
def netC4 : Net where
  fetch u := if u = exHome then some (200, none) else none
  resolve _ := none

/-- Status sequence of the C5 retry scenario: HTTP 503 twice, then 200. -/
def ex503 : Nat → Nat := fun i => if i < 2 then 503 else 200

/-- A normalized on-domain PDF URL. -/
def exPdf : String := "https://www.cncbinternational.com/a.pdf"

/-! ## Validation of the library models against CPython outputs -/

example : urlparseModel [] "http://Host/Path?q=1#f".data =
    ⟨"http".data, "Host".data, "/Path".data, [], "q=1".data, "f".data⟩ := rfl
example : urlparseModel [] "http://h/a;b".data =
    ⟨"http".data, "h".data, "/a".data, "b".data, [], []⟩ := rfl
example : urlparseModel [] "http://h/a;x/b".data =
    ⟨"http".data, "h".data, "/a;x/b".data, [], [], []⟩ := rfl
example : urlparseModel [] "http:foo".data =
    ⟨"http".data, [], "foo".data, [], [], []⟩ := rfl
example : urlparseModel [] "http://h#f?q".data =
    ⟨"http".data, "h".data, [], [], [], "f?q".data⟩ := rfl
example : urlparseModel [] "HTTP://H/P".data =
    ⟨"http".data, "H".data, "/P".data, [], [], []⟩ := rfl
example : urlparseModel [] "//host/p".data =
    ⟨[], "host".data, "/p".data, [], [], []⟩ := rfl
example : normalizeUrl "" = "://" := rfl
example : normalizeUrl "://" = "://://" := rfl
example : normalizeUrl "http://h/p?q;x" = "http://h/p" := rfl
example : normalizeUrl "http://h;x/p" = "http://h;x/p" := rfl
example : urljoinModel "https://www.cncbinternational.com" "/a.pdf" =
    "https://www.cncbinternational.com/a.pdf" := rfl
example : urljoinModel "https://www.cncbinternational.com" "a/b.pdf" =
    "https://www.cncbinternational.com/a/b.pdf" := rfl
example : urljoinModel "https://www.cncbinternational.com" "../x" =
    "https://www.cncbinternational.com/x" := rfl
example : urljoinModel "https://www.cncbinternational.com"
    "https://evil.example/www.cncbinternational.com/x.pdf" =
    "https://evil.example/www.cncbinternational.com/x.pdf" := rfl
example : urljoinModel "https://www.cncbinternational.com" "//other.example/y" =
    "https://other.example/y" := rfl
example : urljoinModel "https://www.cncbinternational.com" "relative" =
    "https://www.cncbinternational.com/relative" := rfl
example : urljoinModel "https://www.cncbinternational.com" "" =
    "https://www.cncbinternational.com" := rfl

/-! Validation of the filename-regex model against CPython `re` outputs. -/

example : validate_pdf_filename "report.pdf" = true := rfl
example : validate_pdf_filename "report (1).pdf" = false := rfl
example : validate_pdf_filename "a.pdf\n" = true := rfl
example : validate_pdf_filename "a.pdf\n\n" = false := rfl
example : validate_pdf_filename ".pdf" = false := rfl
example : validate_pdf_filename "a.pdfx" = false := rfl
example : validate_pdf_filename "X.PDF" = false := rfl
example : validate_pdf_filename "a.pdf.pdf" = false := rfl
example : validate_pdf_filename "tmp_fn_0.pdf" = true := rfl
example : validate_pdf_filename "a-_9.pdf" = true := rfl
example : validate_pdf_filename "" = false := rfl
example : validate_pdf_filename "a.pdf\nx" = false := rfl
example : validate_pdf_filename "a.PDF\n" = false := rfl

/-! ## Supporting lemmas -/

theorem containsIffMem {α : Type} [BEq α] [LawfulBEq α] {l : List α} {u : α} :
    l.contains u = true ↔ u ∈ l := by
  simp [List.contains]

theorem memFoldlDedup {α : Type} [BEq α] [LawfulBEq α] (l acc : List α) (u : α) :
    u ∈ l.foldl (fun acc v => if acc.contains v then acc else acc ++ [v]) acc ↔
      u ∈ acc ∨ u ∈ l := by
  induction l generalizing acc with
  | nil => simp
  | cons a rest ih =>
    simp only [List.foldl_cons]
    by_cases h : acc.contains a = true
    · rw [if_pos h, ih]
      have ha : a ∈ acc := containsIffMem.mp h
      constructor
      · rintro (hu | hu)
        · exact Or.inl hu
        · exact Or.inr (List.mem_cons_of_mem a hu)
      · rintro (hu | hu)
        · exact Or.inl hu
        · rcases List.mem_cons.mp hu with rfl | hu
          · exact Or.inl ha
          · exact Or.inr hu
    · rw [if_neg h, ih]
      simp [List.mem_append, List.mem_cons, or_assoc]

theorem mem_pyDedup {l : List String} {u : String} : u ∈ pyDedup l ↔ u ∈ l := by
  unfold pyDedup
  rw [memFoldlDedup]
  simp

theorem listStartsWith_iff {l p : List Char} : listStartsWith l p = true ↔ p <+: l := by
  induction p generalizing l with
  | nil => simp [listStartsWith]
  | cons c cs ih =>
    cases l with
    | nil => simp [listStartsWith]
    | cons d ds =>
      simp only [listStartsWith, Bool.and_eq_true, decide_eq_true_eq, ih,
        List.cons_prefix_cons]
      constructor
      · rintro ⟨rfl, hp⟩; exact ⟨rfl, hp⟩
      · rintro ⟨rfl, hp⟩; exact ⟨rfl, hp⟩

theorem listHasInfix_iff {l p : List Char} : listHasInfix l p = true ↔ p <:+: l := by
  induction l with
  | nil => simp [listHasInfix, List.isEmpty_iff]
  | cons a rest ih =>
    simp only [listHasInfix, Bool.or_eq_true, listStartsWith_iff, ih,
      List.infix_cons_iff]

theorem pyIn_iff {n h : String} : pyIn n h = true ↔ n.data <:+: h.data := by
  unfold pyIn
  exact listHasInfix_iff

theorem pyEndsWith_iff {s t : String} : pyEndsWith s t = true ↔ t.data <:+ s.data := by
  unfold pyEndsWith
  exact List.isSuffixOf_iff_suffix

theorem pyLowerChar_fix {c d : Char} (h : pyLowerChar c = d) : pyLowerChar d = d := by
  unfold pyLowerChar at h
  split at h <;>
    (subst h; first | rfl | (unfold pyLowerChar; split <;> simp_all))

theorem pyLowerChar_idem (c : Char) : pyLowerChar (pyLowerChar c) = pyLowerChar c :=
  pyLowerChar_fix rfl

theorem containsEqFalse {α : Type} [BEq α] [LawfulBEq α] {l : List α} {u : α} :
    l.contains u = false ↔ u ∉ l := by
  simp [List.contains]

theorem fetchStep_cases (cfg : CrawlConfig) (net : Net) (acc acc' : RoundAcc) (u : String)
    (h : fetchStep cfg net acc u = Except.ok acc') :
    (acc'.traversed = acc.traversed ∧ acc'.fetchLog = acc.fetchLog)
    ∨ (acc.traversed.contains u = false
        ∧ acc'.traversed = acc.traversed ++ [u] ∧ acc'.fetchLog = acc.fetchLog ++ [u]) := by
  unfold fetchStep at h
  split at h
  · left
    simp only [Except.ok.injEq] at h
    subst h
    exact ⟨rfl, rfl⟩
  · right
    next hc =>
    refine ⟨by simpa using hc, ?_⟩
    split at h
    · simp only [Except.ok.injEq] at h
      subst h
      exact ⟨rfl, rfl⟩
    · split at h
      · split at h
        · simp only [Except.ok.injEq] at h
          subst h
          exact ⟨rfl, rfl⟩
        · simp only [] at h
          split at h
          · simp at h
          · simp only [Except.ok.injEq] at h
            subst h
            exact ⟨rfl, rfl⟩
      · simp only [Except.ok.injEq] at h
        subst h
        exact ⟨rfl, rfl⟩

theorem fetchLoop_inv (cfg : CrawlConfig) (net : Net) (l : List String) :
    ∀ acc acc' : RoundAcc, fetchLoop cfg net acc l = Except.ok acc' →
      ∃ d, acc'.traversed = acc.traversed ++ d ∧ acc'.fetchLog = acc.fetchLog ++ d
        ∧ (acc.traversed.Nodup → acc'.traversed.Nodup) := by
  induction l with
  | nil =>
    intro acc acc' h
    unfold fetchLoop at h
    simp only [Except.ok.injEq] at h
    subst h
    exact ⟨[], by simp, by simp, id⟩
  | cons u rest ih =>
    intro acc acc' h
    unfold fetchLoop at h
    cases hs : fetchStep cfg net acc u with
    | error e => rw [hs] at h; simp at h
    | ok acc₁ =>
      rw [hs] at h
      obtain ⟨d, hd1, hd2, hd3⟩ := ih acc₁ acc' h
      rcases fetchStep_cases cfg net acc acc₁ u hs with ⟨h1, h2⟩ | ⟨hc, h1, h2⟩
      · exact ⟨d, by rw [hd1, h1], by rw [hd2, h2], fun hn => hd3 (by rwa [h1])⟩
      · refine ⟨u :: d, ?_, ?_, ?_⟩
        · rw [hd1, h1, List.append_assoc]; rfl
        · rw [hd2, h2, List.append_assoc]; rfl
        · intro hn
          apply hd3
          rw [h1, List.nodup_append]
          refine ⟨hn, List.nodup_singleton u, ?_⟩
          intro a ha hmem
          rcases List.mem_singleton.mp hmem with rfl
          exact containsEqFalse.mp hc ha

theorem crawlRoundCore_traversed (cfg : CrawlConfig) (net : Net) (st st' : CrawlState)
    (urls log next : List String)
    (h : crawlRoundCore cfg net st urls = Except.ok (st', log, next)) :
    st'.traversed = st.traversed ++ log
    ∧ (st.traversed.Nodup → st'.traversed.Nodup) := by
  unfold crawlRoundCore at h
  simp only [] at h
  split at h
  · simp at h
  · next acc heq =>
    simp only [Except.ok.injEq, Prod.mk.injEq] at h
    obtain ⟨rfl, rfl, rfl⟩ := h
    obtain ⟨d, hd1, hd2, hd3⟩ := fetchLoop_inv cfg net _ _ acc heq
    have hd1' : acc.traversed = st.traversed ++ d := by simpa using hd1
    have hd2' : acc.fetchLog = d := by simpa using hd2
    have hd3' : st.traversed.Nodup → acc.traversed.Nodup := fun hn => hd3 (by simpa using hn)
    exact ⟨by rw [hd1', hd2'], hd3'⟩

theorem crawl_inv (cfg : CrawlConfig) (net : Net) (fuel : Nat) :
    ∀ (st : CrawlState) (frontier : List String) (st' : CrawlState) (log : List String),
      crawl cfg net fuel st frontier = Except.ok (st', log) →
      st'.traversed = st.traversed ++ log
      ∧ (st.traversed.Nodup → st'.traversed.Nodup) := by
  induction fuel with
  | zero => intro st frontier st' log h; simp [crawl] at h
  | succ fuel ih =>
    intro st frontier st' log h
    unfold crawl at h
    split at h
    · simp only [Except.ok.injEq, Prod.mk.injEq] at h
      obtain ⟨rfl, rfl⟩ := h
      exact ⟨by simp, id⟩
    · cases hr : crawlRoundCore cfg net st frontier with
      | error e => rw [hr] at h; simp at h
      | ok r =>
        obtain ⟨st₁, log₁, next⟩ := r
        rw [hr] at h
        simp only [] at h
        cases hc : crawl cfg net fuel st₁ next with
        | error e => rw [hc] at h; simp at h
        | ok p =>
          obtain ⟨stF, logF⟩ := p
          rw [hc] at h
          simp only [Except.ok.injEq, Prod.mk.injEq] at h
          obtain ⟨rfl, rfl⟩ := h
          obtain ⟨hr1, hr2⟩ := crawlRoundCore_traversed cfg net st st₁ frontier log₁ next hr
          obtain ⟨ih1, ih2⟩ := ih st₁ next stF logF hc
          exact ⟨by rw [ih1, hr1, List.append_assoc], fun hn => ih2 (hr2 hn)⟩

theorem extractStep_marker (cfg : CrawlConfig) (traversed : List String)
    (acc : List String) (link : Option String) (u : String)
    (hu : u ∈ extractStep cfg traversed acc link) :
    u ∈ acc ∨ pyIn domainMarker u = true := by
  unfold extractStep at hu
  split at hu
  · exact Or.inl hu
  · simp only [] at hu
    split at hu
    · split at hu
      · rename_i hin
        rcases List.mem_append.mp hu with h | h
        · exact Or.inl h
        · right
          rcases List.mem_singleton.mp h with rfl
          simp only [Bool.and_eq_true] at hin
          exact hin.1
      · exact Or.inl hu
    · exact Or.inl hu

theorem extractFold_marker (cfg : CrawlConfig) (traversed : List String)
    (links : List (Option String)) :
    ∀ (acc : List String) (u : String),
      u ∈ links.foldl (extractStep cfg traversed) acc →
      u ∈ acc ∨ pyIn domainMarker u = true := by
  induction links with
  | nil => intro acc u hu; exact Or.inl hu
  | cons link rest ih =>
    intro acc u hu
    rw [List.foldl_cons] at hu
    rcases ih (extractStep cfg traversed acc link) u hu with h | h
    · exact extractStep_marker cfg traversed acc link u h
    · exact Or.inr h

theorem fetchStep_updated (cfg : CrawlConfig) (net : Net) (acc acc' : RoundAcc)
    (v u : String) (h : fetchStep cfg net acc v = Except.ok acc')
    (hu : u ∈ acc'.updated) : u ∈ acc.updated ∨ pyIn domainMarker u = true := by
  unfold fetchStep at h
  split at h
  · simp only [Except.ok.injEq] at h; subst h; exact Or.inl hu
  · split at h
    · simp only [Except.ok.injEq] at h; subst h; exact Or.inl hu
    · split at h
      · split at h
        · simp only [Except.ok.injEq] at h
          subst h
          simp only at hu
          split at hu
          · rcases List.mem_append.mp hu with hm | hm
            · exact Or.inl hm
            · rcases extractFold_marker cfg _ _ [] u hm with hn | hn
              · exact absurd hn (List.not_mem_nil u)
              · exact Or.inr hn
          · exact Or.inl hu
        · simp only [] at h
          split at h
          · simp at h
          · simp only [Except.ok.injEq] at h
            subst h
            simp only at hu
            split at hu
            · rcases List.mem_append.mp hu with hm | hm
              · exact Or.inl hm
              · rcases extractFold_marker cfg _ _ [] u hm with hn | hn
                · exact absurd hn (List.not_mem_nil u)
                · exact Or.inr hn
            · exact Or.inl hu
      · simp only [Except.ok.injEq] at h; subst h; exact Or.inl hu

theorem fetchLoop_updated (cfg : CrawlConfig) (net : Net) (l : List String) :
    ∀ (acc acc' : RoundAcc) (u : String),
      fetchLoop cfg net acc l = Except.ok acc' → u ∈ acc'.updated →
      u ∈ acc.updated ∨ pyIn domainMarker u = true := by
  induction l with
  | nil =>
    intro acc acc' u h hu
    unfold fetchLoop at h
    simp only [Except.ok.injEq] at h
    subst h
    exact Or.inl hu
  | cons v rest ih =>
    intro acc acc' u h hu
    unfold fetchLoop at h
    cases hs : fetchStep cfg net acc v with
    | error e => rw [hs] at h; simp at h
    | ok acc₁ =>
      rw [hs] at h
      rcases ih acc₁ acc' u h hu with hm | hm
      · exact fetchStep_updated cfg net acc acc₁ v u hs hm
      · exact Or.inr hm

theorem sessionAttempts_le (f : Nat → Nat) :
    ∀ r idx : Nat, (sessionAttempts f idx r).1 ≤ idx + r + 1 := by
  intro r
  induction r with
  | zero =>
    intro idx
    unfold sessionAttempts
    split <;> simp
  | succ r ih =>
    intro idx
    unfold sessionAttempts
    split
    · have := ih (idx + 1)
      omega
    · simp

theorem sessionAttempts_forcelist (f : Nat → Nat) :
    ∀ r idx i : Nat, idx ≤ i → i + 1 < (sessionAttempts f idx r).1 →
      statusForcelist (f i) = true := by
  intro r
  induction r with
  | zero =>
    intro idx i hle hlt
    unfold sessionAttempts at hlt
    split at hlt <;> simp at hlt <;> omega
  | succ r ih =>
    intro idx i hle hlt
    unfold sessionAttempts at hlt
    split at hlt
    · rename_i hf
      rcases Nat.lt_or_ge idx i with hlt2 | hge
      · exact ih (idx + 1) i hlt2 hlt
      · have hi : i = idx := Nat.le_antisymm (Nat.le_of_lt_succ (Nat.lt_succ_of_le hge)) hle
        rw [hi]
        exact hf
    · simp at hlt
      omega

theorem pdfNameCore_iff (l : List Char) :
    pdfNameCore l = true ↔
      ∃ s : List Char, s ≠ [] ∧ s.all wordChar = true ∧ l = s ++ ['.', 'p', 'd', 'f'] := by
  unfold pdfNameCore
  simp only [Bool.and_eq_true, decide_eq_true_eq, beq_iff_eq]
  constructor
  · rintro ⟨⟨h5, hdrop⟩, htake⟩
    refine ⟨l.take (l.length - 4), ?_, htake, ?_⟩
    · intro hnil
      have hlen := congrArg List.length hnil
      simp only [List.length_take, List.length_nil] at hlen
      omega
    · conv_lhs => rw [← List.take_append_drop (l.length - 4) l]
      rw [hdrop]
  · rintro ⟨s, hne, hall, rfl⟩
    have hslen : 1 ≤ s.length := List.length_pos.mpr hne
    have hlen : (s ++ ['.', 'p', 'd', 'f']).length = s.length + 4 := by
      simp
    have hsub : (s ++ ['.', 'p', 'd', 'f']).length - 4 = s.length := by omega
    refine ⟨⟨by omega, ?_⟩, ?_⟩
    · rw [hsub, List.drop_left]
    · rw [hsub, List.take_left]
      exact hall

theorem validate_pdf_filename_iff (f : String) :
    validate_pdf_filename f = true ↔
      ∃ s : List Char, s ≠ [] ∧ s.all wordChar = true ∧
        (f.data = s ++ ".pdf".data ∨ f.data = s ++ ".pdf\n".data) := by
  have e4 : (".pdf" : String).data = ['.', 'p', 'd', 'f'] := rfl
  have e5 : (".pdf\n" : String).data = ['.', 'p', 'd', 'f', '\n'] := rfl
  have e45 : ['.', 'p', 'd', 'f', '\n'] = ['.', 'p', 'd', 'f'] ++ ['\n'] := rfl
  simp only [e4, e5]
  change pdfNameCore (if f.data.getLast? = some '\n' then f.data.dropLast else f.data)
      = true ↔ _
  by_cases hl : f.data.getLast? = some '\n'
  · rw [if_pos hl, pdfNameCore_iff]
    have hfe : f.data ≠ [] := by
      intro hnil
      rw [hnil] at hl
      exact Option.noConfusion hl
    have hgl : f.data.getLast hfe = '\n' := by
      have hgg := List.getLast?_eq_getLast f.data hfe
      rw [hgg] at hl
      exact Option.some.inj hl
    have hsplit : f.data.dropLast ++ ['\n'] = f.data := by
      conv_rhs => rw [← List.dropLast_concat_getLast hfe]
      rw [hgl]
    constructor
    · rintro ⟨s, hne, hall, hb⟩
      refine ⟨s, hne, hall, Or.inr ?_⟩
      rw [← hsplit, hb, List.append_assoc]
      rfl
    · rintro ⟨s, hne, hall, hor⟩
      rcases hor with hf | hf
      · exfalso
        rw [hf, List.getLast?_append] at hl
        simp at hl
      · refine ⟨s, hne, hall, ?_⟩
        rw [hf, e45, ← List.append_assoc, List.dropLast_concat]
  · rw [if_neg hl, pdfNameCore_iff]
    constructor
    · rintro ⟨s, hne, hall, hb⟩
      exact ⟨s, hne, hall, Or.inl hb⟩
    · rintro ⟨s, hne, hall, hor⟩
      rcases hor with hf | hf
      · exact ⟨s, hne, hall, hf⟩
      · exfalso
        apply hl
        rw [hf, e45, ← List.append_assoc]
        exact List.getLast?_concat _

theorem collectFold_superset (l : List String) :
    ∀ (pdf : List String) (u : String), u ∈ pdf → u ∈ l.foldl collectPdfStep pdf := by
  induction l with
  | nil => exact fun pdf u hu => hu
  | cons a rest ih =>
    intro pdf u hu
    rw [List.foldl_cons]
    apply ih
    unfold collectPdfStep
    split
    · exact List.mem_append_left _ hu
    · exact hu

theorem collectFold_mem (l : List String) :
    ∀ (pdf : List String) (u : String), u ∈ l →
      pyEndsWith (pyLower u) ".pdf" = true → u ∈ l.foldl collectPdfStep pdf := by
  induction l with
  | nil => intro pdf u hu _; exact absurd hu (List.not_mem_nil u)
  | cons a rest ih =>
    intro pdf u hu hend
    rw [List.foldl_cons]
    rcases List.mem_cons.mp hu with rfl | hu
    · apply collectFold_superset
      unfold collectPdfStep
      by_cases hc : pdf.contains u = true
      · have : (pyEndsWith (pyLower u) ".pdf" && !pdf.contains u) = false := by
          rw [hc]
          simp
        rw [this, if_neg (by simp)]
        exact containsIffMem.mp hc
      · have hcf : pdf.contains u = false := by
          cases hb : pdf.contains u with
          | false => rfl
          | true => exact absurd hb hc
        have : (pyEndsWith (pyLower u) ".pdf" && !pdf.contains u) = true := by
          rw [hend, hcf]
          rfl
        rw [this, if_pos rfl]
        exact List.mem_append_right _ (List.mem_singleton.mpr rfl)
    · exact ih (collectPdfStep pdf a) u hu hend

theorem removePdf_not_mem (pdf l : List String) (u : String) (hu : u ∈ pdf) :
    u ∉ removePdf pdf l := by
  intro hmem
  unfold removePdf at hmem
  rw [mem_pyDedup, List.mem_filter] at hmem
  have hb := hmem.2
  rw [Bool.not_eq_true'] at hb
  exact containsEqFalse.mp hb hu

theorem validate_false_of_case_mismatch (f : String)
    (h1 : pyEndsWith (pyLower f) ".pdf" = true)
    (h2 : pyEndsWith f ".pdf" = false) :
    validate_pdf_filename f = false := by
  cases hv : validate_pdf_filename f with
  | false => rfl
  | true =>
    exfalso
    rcases (validate_pdf_filename_iff f).mp hv with ⟨s, hne, hall, hor⟩
    rcases hor with hf | hf
    · have hsfx : pyEndsWith f ".pdf" = true := by
        rw [pyEndsWith_iff, hf]
        exact List.suffix_append _ _
      rw [hsfx] at h2
      exact Bool.noConfusion h2
    · rw [pyEndsWith_iff] at h1
      have hlow : (pyLower f).data = s.map pyLowerChar ++ (".pdf\n" : String).data := by
        simp only [pyLower, hf, List.map_append]
        rfl
      rcases h1 with ⟨w, hw⟩
      have hA : ((pyLower f).data).getLast? = some '\n' := by
        rw [hlow, show (".pdf\n" : String).data = ".pdf".data ++ ['\n'] from rfl,
          ← List.append_assoc]
        exact List.getLast?_concat _
      have hB : ((pyLower f).data).getLast? = some 'f' := by
        rw [← hw, show (".pdf" : String).data = ['.', 'p', 'd'] ++ ['f'] from rfl,
          ← List.append_assoc]
        exact List.getLast?_concat _
      rw [hA] at hB
      exact absurd (Option.some.inj hB) (by decide)

theorem downloadStep_placeholder (destination : String)
    (dl : String → String → DlOutcome) (url : String)
    (hval : validate_pdf_filename (pyBasename url) = false)
    (st : DlState) (a : String)
    (hres : ∀ rec ∈ st.results, rec.original_url = url →
      ∃ n : Nat, rec.file_name = "tmp_fn_" ++ toString n ++ ".pdf")
    (hcalls : ∀ pc ∈ st.calls, pc.1 = url →
      ∃ n : Nat, pc.2 = destination ++ "/" ++ ("tmp_fn_" ++ toString n ++ ".pdf")) :
    (∀ rec ∈ (downloadStep destination dl st a).results, rec.original_url = url →
      ∃ n : Nat, rec.file_name = "tmp_fn_" ++ toString n ++ ".pdf")
    ∧ (∀ pc ∈ (downloadStep destination dl st a).calls, pc.1 = url →
      ∃ n : Nat, pc.2 = destination ++ "/" ++ ("tmp_fn_" ++ toString n ++ ".pdf")) := by
  unfold downloadStep
  simp only []
  split
  · exact ⟨hres, hcalls⟩
  · constructor
    · intro rec hrec hurl
      rcases List.mem_append.mp hrec with hm | hm
      · exact hres rec hm hurl
      · rcases List.mem_singleton.mp hm with rfl
        have ha : a = url := hurl
        subst ha
        rw [if_neg (by rw [hval]; exact Bool.noConfusion)]
        exact ⟨st.cnt, rfl⟩
    · intro pc hpc hurl
      rcases List.mem_append.mp hpc with hm | hm
      · exact hcalls pc hm hurl
      · rcases List.mem_singleton.mp hm with rfl
        have ha : a = url := hurl
        subst ha
        rw [if_neg (by rw [hval]; exact Bool.noConfusion)]
        exact ⟨st.cnt, rfl⟩

theorem downloadFold_placeholder (destination : String)
    (dl : String → String → DlOutcome) (url : String)
    (hval : validate_pdf_filename (pyBasename url) = false) (urls : List String) :
    ∀ st : DlState,
      (∀ rec ∈ st.results, rec.original_url = url →
        ∃ n : Nat, rec.file_name = "tmp_fn_" ++ toString n ++ ".pdf") →
      (∀ pc ∈ st.calls, pc.1 = url →
        ∃ n : Nat, pc.2 = destination ++ "/" ++ ("tmp_fn_" ++ toString n ++ ".pdf")) →
      (∀ rec ∈ (urls.foldl (downloadStep destination dl) st).results,
        rec.original_url = url →
        ∃ n : Nat, rec.file_name = "tmp_fn_" ++ toString n ++ ".pdf")
      ∧ (∀ pc ∈ (urls.foldl (downloadStep destination dl) st).calls, pc.1 = url →
        ∃ n : Nat, pc.2 = destination ++ "/" ++ ("tmp_fn_" ++ toString n ++ ".pdf")) := by
  induction urls with
  | nil => exact fun st hres hcalls => ⟨hres, hcalls⟩
  | cons a rest ih =>
    intro st hres hcalls
    rw [List.foldl_cons]
    obtain ⟨hres1, hcalls1⟩ :=
      downloadStep_placeholder destination dl url hval st a hres hcalls
    exact ih (downloadStep destination dl st a) hres1 hcalls1

theorem pyLowerChar_isAlpha {c : Char} (h : c.isAlpha = true) :
    (pyLowerChar c).isAlpha = true := by
  unfold pyLowerChar
  split <;> first | decide | exact h

theorem pyLowerChar_schemeChar {c : Char} (h : schemeChar c = true) :
    schemeChar (pyLowerChar c) = true := by
  unfold pyLowerChar
  split <;> first | decide | exact h

theorem pyLowerChar_ne_colon {c : Char} (h : c ≠ ':') : pyLowerChar c ≠ ':' := by
  unfold pyLowerChar
  split <;> first | decide | exact h

theorem pyLowerChar_strip {c : Char} (h : whatwgStripChar c = false) :
    whatwgStripChar (pyLowerChar c) = false := by
  unfold pyLowerChar
  split <;> first | decide | exact h

theorem validScheme_map_pyLowerChar {l : List Char} (h : validScheme l = true) :
    validScheme (l.map pyLowerChar) = true := by
  cases l with
  | nil => exact absurd h (by simp [validScheme])
  | cons c cs =>
    unfold validScheme at h ⊢
    rw [List.map_cons]
    rw [Bool.and_eq_true] at h ⊢
    refine ⟨pyLowerChar_isAlpha h.1, ?_⟩
    rw [← List.map_cons]
    rw [List.all_eq_true] at h ⊢
    intro x hx
    rcases List.mem_map.mp hx with ⟨a, ha, rfl⟩
    exact pyLowerChar_schemeChar (h.2 a ha)

theorem map_pyLowerChar_idem (l : List Char) :
    (l.map pyLowerChar).map pyLowerChar = l.map pyLowerChar := by
  rw [List.map_map]
  exact List.map_congr_left fun a _ => pyLowerChar_idem a

/-- The first element of `dropWhile (· ≠ '/')` is `'/'` when the result is
nonempty. -/
theorem dropWhile_slash_head (l : List Char) :
    l.dropWhile (fun c => c ≠ '/') = []
    ∨ ∃ t, l.dropWhile (fun c => c ≠ '/') = '/' :: t := by
  induction l with
  | nil => exact Or.inl rfl
  | cons c cs ih =>
    by_cases hc : c = '/'
    · subst hc
      right
      exact ⟨cs, by simp [List.dropWhile_cons]⟩
    · rw [List.dropWhile_cons, if_pos (by simpa using hc)]
      exact ih

/-- Decomposition of a list containing `'/'` around its last `'/'`:
the last segment `seg` is slash-free, and the `take` used by
`splitParams` is exactly the part up to and including the last `'/'`. -/
theorem lastSlash_decomp (l : List Char) (hs : l.contains '/' = true) :
    ∃ t : List Char,
      l = t ++ '/' :: (l.reverse.takeWhile (fun c => c ≠ '/')).reverse
      ∧ l.take (l.length - ((l.reverse.takeWhile (fun c => c ≠ '/')).reverse).length)
          = t ++ ['/'] := by
  have hmem : '/' ∈ l.reverse := List.mem_reverse.mpr (containsIffMem.mp hs)
  rcases dropWhile_slash_head l.reverse with hnil | ⟨t', ht⟩
  · exfalso
    rw [List.dropWhile_eq_nil_iff] at hnil
    have := hnil '/' hmem
    simp at this
  · have hdecomp : l =
        (t'.reverse ++ ['/']) ++ (l.reverse.takeWhile (fun c => c ≠ '/')).reverse := by
      conv_lhs => rw [← List.reverse_reverse l,
        ← List.takeWhile_append_dropWhile (fun c => decide (c ≠ '/')) l.reverse]
      rw [ht, List.reverse_append, List.reverse_cons]
    refine ⟨t'.reverse, ?_, ?_⟩
    · conv_lhs => rw [hdecomp]
      rw [List.append_assoc]
      rfl
    · have hlen : l.length = (t'.reverse ++ ['/']).length
          + ((l.reverse.takeWhile (fun c => c ≠ '/')).reverse).length := by
        conv_lhs => rw [hdecomp]
        rw [List.length_append]
      rw [show l.length - ((l.reverse.takeWhile (fun c => c ≠ '/')).reverse).length
          = (t'.reverse ++ ['/']).length from by omega]
      conv_lhs => rw [hdecomp]
      exact List.take_left _ _

/-- `splitParams` leaves a path of the shape `w ++ '/' :: kept` unchanged
when the final segment `kept` is slash-free and semicolon-free. -/
theorem splitParams_id_of (w kept : List Char)
    (hk1 : ∀ c ∈ kept, c ≠ '/') (hk2 : kept.contains ';' = false) :
    (splitParams (w ++ '/' :: kept)).1 = w ++ '/' :: kept := by
  unfold splitParams
  have hcontains : (w ++ '/' :: kept).contains '/' = true :=
    containsIffMem.mpr (List.mem_append_right _ (List.mem_cons_self _ _))
  rw [if_pos hcontains]
  have hseg : ((w ++ '/' :: kept).reverse.takeWhile (fun c => c ≠ '/')).reverse
      = kept := by
    rw [List.reverse_append, List.reverse_cons, List.append_assoc,
      List.takeWhile_append_of_pos (fun a ha => by
        simpa using hk1 a (List.mem_reverse.mp ha))]
    rw [show ((['/'] ++ w.reverse).takeWhile fun c => decide (c ≠ '/')) = [] from rfl]
    rw [List.append_nil, List.reverse_reverse]
  rw [hseg, if_neg (by rw [hk2]; exact Bool.noConfusion)]

theorem normalize_fixed (s N Pp : List Char)
    (hs1 : validScheme s = true)
    (hs2 : s.map pyLowerChar = s)
    (hs3 : ∀ c ∈ s, c ≠ ':')
    (hcs : ∀ c ∈ s, whatwgStripChar c = false)
    (hcN : ∀ c ∈ N, whatwgStripChar c = false)
    (hcP : ∀ c ∈ Pp, whatwgStripChar c = false)
    (hN : ∀ c ∈ N, netlocDelim c = false)
    (hPh : ∀ c ∈ Pp, c ≠ '#')
    (hPq : ∀ c ∈ Pp, c ≠ '?')
    (hfix : usesParams s = true →
      (Pp.dropWhile (fun c => !netlocDelim c)).contains ';' = true →
      (splitParams (Pp.dropWhile (fun c => !netlocDelim c))).1
        = Pp.dropWhile (fun c => !netlocDelim c)) :
    normalizeUrl ⟨s ++ ':' :: '/' :: '/' :: (N ++ Pp)⟩
      = ⟨s ++ ':' :: '/' :: '/' :: (N ++ Pp)⟩ := by
  have hclean : whatwgClean (s ++ ':' :: '/' :: '/' :: (N ++ Pp))
      = s ++ ':' :: '/' :: '/' :: (N ++ Pp) := by
    unfold whatwgClean
    rw [List.filter_eq_self]
    intro c hc
    rcases List.mem_append.mp hc with h | h
    · rw [hcs c h]
      rfl
    · simp only [List.mem_cons] at h
      rcases h with rfl | rfl | rfl | h
      · decide
      · decide
      · decide
      · rcases List.mem_append.mp h with h2 | h2
        · rw [hcN c h2]
          rfl
        · rw [hcP c h2]
          rfl
  have htw : (s ++ ':' :: '/' :: '/' :: (N ++ Pp)).takeWhile (fun c => c ≠ ':') = s := by
    rw [List.takeWhile_append_of_pos (fun a ha => by simpa using hs3 a ha)]
    rw [show ((':' :: '/' :: '/' :: (N ++ Pp)).takeWhile fun c => decide (c ≠ ':')) = []
      from rfl]
    exact List.append_nil s
  have hlen : s.length < (s ++ ':' :: '/' :: '/' :: (N ++ Pp)).length := by
    rw [List.length_append, List.length_cons]
    omega
  have hdrop : (s ++ ':' :: '/' :: '/' :: (N ++ Pp)).drop (s.length + 1)
      = '/' :: '/' :: (N ++ Pp) := by
    rw [show s ++ ':' :: '/' :: '/' :: (N ++ Pp)
        = (s ++ [':']) ++ ('/' :: '/' :: (N ++ Pp)) from by
      rw [List.append_assoc]
      rfl]
    exact List.drop_left' (by rw [List.length_append]; rfl)
  have hss : splitScheme (s ++ ':' :: '/' :: '/' :: (N ++ Pp))
      = some (s, '/' :: '/' :: (N ++ Pp)) := by
    unfold splitScheme
    simp only []
    rw [htw]
    have hcond : (decide (s.length < (s ++ ':' :: '/' :: '/' :: (N ++ Pp)).length)
        && validScheme s) = true := by
      rw [hs1, decide_eq_true hlen]
      rfl
    rw [if_pos hcond, hs2, hdrop]
  have hdw : (N ++ Pp).dropWhile (fun c => !netlocDelim c)
      = Pp.dropWhile (fun c => !netlocDelim c) := by
    rw [List.dropWhile_append,
      show N.dropWhile (fun c => !netlocDelim c) = [] from
        List.dropWhile_eq_nil_iff.mpr (fun c hc => by rw [hN c hc]; rfl)]
    rfl
  have hRmem : ∀ c ∈ (N ++ Pp).dropWhile (fun c => !netlocDelim c), c ∈ N ++ Pp :=
    fun c hc => (List.dropWhile_sublist _).subset hc
  have hRh : ∀ c ∈ (N ++ Pp).dropWhile (fun c => !netlocDelim c), c ≠ '#' := by
    intro c hc
    rcases List.mem_append.mp (hRmem c hc) with h2 | h2
    · intro hcc
      subst hcc
      have := hN _ h2
      simp [netlocDelim] at this
    · exact hPh c h2
  have hRq : ∀ c ∈ (N ++ Pp).dropWhile (fun c => !netlocDelim c), c ≠ '?' := by
    intro c hc
    rcases List.mem_append.mp (hRmem c hc) with h2 | h2
    · intro hcc
      subst hcc
      have := hN _ h2
      simp [netlocDelim] at this
    · exact hPq c h2
  have htf : ((N ++ Pp).dropWhile (fun c => !netlocDelim c)).takeWhile
      (fun c => c ≠ '#') = (N ++ Pp).dropWhile (fun c => !netlocDelim c) :=
    List.takeWhile_eq_self_iff.mpr (fun c hc => by simpa using hRh c hc)
  have htq : ((N ++ Pp).dropWhile (fun c => !netlocDelim c)).takeWhile
      (fun c => c ≠ '?') = (N ++ Pp).dropWhile (fun c => !netlocDelim c) :=
    List.takeWhile_eq_self_iff.mpr (fun c hc => by simpa using hRq c hc)
  unfold normalizeUrl urlparseModel urlsplitModel
  simp only []
  rw [hclean, hss]
  simp only []
  rw [show splitNetloc ('/' :: '/' :: (N ++ Pp))
      = ((N ++ Pp).takeWhile (fun c => !netlocDelim c),
         (N ++ Pp).dropWhile (fun c => !netlocDelim c)) from rfl]
  simp only []
  rw [htf, htq]
  have hTD : (N ++ Pp).takeWhile (fun c => !netlocDelim c)
      ++ (N ++ Pp).dropWhile (fun c => !netlocDelim c) = N ++ Pp :=
    List.takeWhile_append_dropWhile _ _
  by_cases hup : usesParams s = true
  · by_cases hsc :
        ((N ++ Pp).dropWhile (fun c => !netlocDelim c)).contains ';' = true
    · rw [if_pos (by rw [hup, hsc]; rfl)]
      simp only []
      have hfix2 := hfix hup (by rw [← hdw]; exact hsc)
      rw [hdw, hfix2, ← hdw]
      rw [List.append_assoc (s ++ [':', '/', '/']), hTD,
        List.append_assoc s [':', '/', '/']]
      rfl
    · have hscf : ((N ++ Pp).dropWhile (fun c => !netlocDelim c)).contains ';' = false := by
        cases h2 : ((N ++ Pp).dropWhile (fun c => !netlocDelim c)).contains ';' with
        | false => rfl
        | true => exact absurd h2 hsc
      rw [if_neg (by rw [hscf, Bool.and_false]; simp)]
      simp only []
      rw [List.append_assoc (s ++ [':', '/', '/']), hTD,
        List.append_assoc s [':', '/', '/']]
      rfl
  · have hupf : usesParams s = false := by
      cases hu2 : usesParams s with
      | false => rfl
      | true => exact absurd hu2 hup
    rw [if_neg (by rw [hupf, Bool.false_and]; simp)]
    simp only []
    rw [List.append_assoc (s ++ [':', '/', '/']), hTD,
      List.append_assoc s [':', '/', '/']]
    rfl

theorem splitParams_subset (l : List Char) : ∀ c ∈ (splitParams l).1, c ∈ l := by
  unfold splitParams
  simp only []
  split
  · split
    · intro c hc
      rcases List.mem_append.mp hc with h | h
      · exact List.take_subset _ _ h
      · have h1 : c ∈ (l.reverse.takeWhile (fun c => c ≠ '/')).reverse :=
          List.takeWhile_subset _ h
        have h2 : c ∈ l.reverse :=
          List.takeWhile_subset _ (List.mem_reverse.mp h1)
        exact List.mem_reverse.mp h2
    · intro c hc
      exact hc
  · intro c hc
    exact List.takeWhile_subset _ hc

theorem splitScheme_props {l s rest : List Char}
    (hsp : splitScheme l = some (s, rest)) :
    validScheme s = true ∧ s.map pyLowerChar = s
    ∧ (∀ c ∈ s, c ≠ ':')
    ∧ (∀ c ∈ s, ∃ a ∈ l, c = pyLowerChar a)
    ∧ (∀ c ∈ rest, c ∈ l) := by
  unfold splitScheme at hsp
  simp only [] at hsp
  split at hsp
  · rw [Option.some.injEq, Prod.mk.injEq] at hsp
    obtain ⟨hs, hrest⟩ := hsp
    next hcond =>
    rw [Bool.and_eq_true] at hcond
    have hvpre := hcond.2
    subst hs
    subst hrest
    refine ⟨validScheme_map_pyLowerChar hvpre, map_pyLowerChar_idem _, ?_, ?_, ?_⟩
    · intro c hc
      rcases List.mem_map.mp hc with ⟨a, ha, rfl⟩
      have hne := List.mem_takeWhile_imp ha
      exact pyLowerChar_ne_colon (by simpa using hne)
    · intro c hc
      rcases List.mem_map.mp hc with ⟨a, ha, rfl⟩
      exact ⟨a, List.takeWhile_subset _ ha, rfl⟩
    · intro c hc
      exact List.drop_subset _ _ hc
  · exact absurd hsp (by simp)

theorem splitNetloc_props (r : List Char) :
    (∀ c ∈ (splitNetloc r).1, netlocDelim c = false)
    ∧ (∀ c ∈ (splitNetloc r).1, c ∈ r)
    ∧ (∀ c ∈ (splitNetloc r).2, c ∈ r) := by
  unfold splitNetloc
  split
  · next rest =>
    refine ⟨?_, ?_, ?_⟩
    · intro c hc
      have := List.mem_takeWhile_imp hc
      simpa using this
    · intro c hc
      exact List.mem_cons_of_mem _
        (List.mem_cons_of_mem _ (List.takeWhile_subset _ hc))
    · intro c hc
      exact List.mem_cons_of_mem _
        (List.mem_cons_of_mem _ (List.dropWhile_subset _ hc))
  · exact ⟨fun c hc => absurd hc (List.not_mem_nil c),
      fun c hc => absurd hc (List.not_mem_nil c), fun c hc => hc⟩

theorem pathFrom_subset_path0 (s rest2 : List Char) :
    ∀ c ∈ pathFrom s rest2,
      c ∈ (rest2.takeWhile (fun c => c ≠ '#')).takeWhile (fun c => c ≠ '?') := by
  intro c hc
  unfold pathFrom at hc
  simp only [] at hc
  split at hc
  · exact splitParams_subset _ c hc
  · exact hc

theorem pathFrom_no_delims (s rest2 : List Char) :
    (∀ c ∈ pathFrom s rest2, c ≠ '#') ∧ (∀ c ∈ pathFrom s rest2, c ≠ '?') := by
  constructor
  · intro c hc
    have h1 := pathFrom_subset_path0 s rest2 c hc
    have h2 := List.mem_takeWhile_imp (List.takeWhile_subset _ h1 :
      c ∈ rest2.takeWhile (fun c => c ≠ '#'))
    simpa using h2
  · intro c hc
    have := List.mem_takeWhile_imp (pathFrom_subset_path0 s rest2 c hc)
    simpa using this

theorem splitParams_fst_cases (l : List Char) (hsl : l.contains '/' = true) :
    ∃ t kept : List Char, (∀ c ∈ kept, c ≠ '/') ∧ kept.contains ';' = false
      ∧ (splitParams l).1 = t ++ '/' :: kept := by
  obtain ⟨t, hdec, htake⟩ := lastSlash_decomp l hsl
  have hsegmem : ∀ c ∈ (l.reverse.takeWhile (fun c => c ≠ '/')).reverse, c ≠ '/' := by
    intro c hc
    have := List.mem_takeWhile_imp (List.mem_reverse.mp hc)
    simpa using this
  by_cases hss :
      ((l.reverse.takeWhile (fun c => c ≠ '/')).reverse).contains ';' = true
  · refine ⟨t,
      ((l.reverse.takeWhile (fun c => c ≠ '/')).reverse).takeWhile (fun c => c ≠ ';'),
      ?_, ?_, ?_⟩
    · intro c hc
      exact hsegmem c (List.takeWhile_subset _ hc)
    · rw [containsEqFalse]
      intro hmem
      have := List.mem_takeWhile_imp hmem
      simp at this
    · unfold splitParams
      simp only []
      rw [if_pos hsl, if_pos hss, htake, List.append_assoc]
      rfl
  · have hssf : ((l.reverse.takeWhile (fun c => c ≠ '/')).reverse).contains ';'
        = false := by
      cases h2 : ((l.reverse.takeWhile (fun c => c ≠ '/')).reverse).contains ';' with
      | false => rfl
      | true => exact absurd h2 hss
    refine ⟨t, (l.reverse.takeWhile (fun c => c ≠ '/')).reverse, hsegmem, hssf, ?_⟩
    unfold splitParams
    simp only []
    rw [if_pos hsl, if_neg (by rw [hssf]; exact Bool.noConfusion)]
    exact hdec

theorem splitParams_noslash (l : List Char) (hsl : l.contains '/' = false) :
    (splitParams l).1 = l.takeWhile (fun c => c ≠ ';') := by
  unfold splitParams
  simp only []
  rw [if_neg (by rw [hsl]; exact Bool.noConfusion)]

theorem dropWhile_last_decomp (t kept : List Char) (hk1 : ∀ c ∈ kept, c ≠ '/')
    (hk2 : kept.contains ';' = false) :
    (splitParams ((t ++ '/' :: kept).dropWhile (fun c => !netlocDelim c))).1
      = (t ++ '/' :: kept).dropWhile (fun c => !netlocDelim c) := by
  have hcons : ('/' :: kept).dropWhile (fun c => !netlocDelim c) = '/' :: kept := by
    rw [List.dropWhile_cons]
    simp [netlocDelim]
  rw [List.dropWhile_append]
  by_cases he : ((t.dropWhile (fun c => !netlocDelim c)).isEmpty : Prop)
  · rw [if_pos he, hcons]
    exact splitParams_id_of [] kept hk1 hk2
  · rw [if_neg he]
    exact splitParams_id_of _ kept hk1 hk2

theorem pathFrom_fix (s rest2 : List Char) (hup : usesParams s = true)
    (hcont : ((pathFrom s rest2).dropWhile (fun c => !netlocDelim c)).contains ';'
      = true) :
    (splitParams ((pathFrom s rest2).dropWhile (fun c => !netlocDelim c))).1
      = (pathFrom s rest2).dropWhile (fun c => !netlocDelim c) := by
  have hsemiP : ';' ∈ pathFrom s rest2 :=
    List.dropWhile_subset _ (containsIffMem.mp hcont)
  have hsemi0 : ';' ∈ (rest2.takeWhile (fun c => c ≠ '#')).takeWhile (fun c => c ≠ '?') :=
    pathFrom_subset_path0 s rest2 ';' hsemiP
  have hc0 : ((rest2.takeWhile (fun c => c ≠ '#')).takeWhile
      (fun c => c ≠ '?')).contains ';' = true := containsIffMem.mpr hsemi0
  have hPeq : pathFrom s rest2 = (splitParams
      ((rest2.takeWhile (fun c => c ≠ '#')).takeWhile (fun c => c ≠ '?'))).1 := by
    unfold pathFrom
    simp only []
    rw [if_pos (by rw [hup, hc0]; rfl)]
  by_cases hsl : ((rest2.takeWhile (fun c => c ≠ '#')).takeWhile
      (fun c => c ≠ '?')).contains '/' = true
  · obtain ⟨t, kept, hk1, hk2, hfst⟩ := splitParams_fst_cases _ hsl
    rw [hPeq, hfst]
    exact dropWhile_last_decomp t kept hk1 hk2
  · exfalso
    have hslf : ((rest2.takeWhile (fun c => c ≠ '#')).takeWhile
        (fun c => c ≠ '?')).contains '/' = false := by
      cases h2 : ((rest2.takeWhile (fun c => c ≠ '#')).takeWhile
          (fun c => c ≠ '?')).contains '/' with
      | false => rfl
      | true => exact absurd h2 hsl
    have hPt : pathFrom s rest2 = ((rest2.takeWhile (fun c => c ≠ '#')).takeWhile
        (fun c => c ≠ '?')).takeWhile (fun c => c ≠ ';') := by
      rw [hPeq, splitParams_noslash _ hslf]
    rw [hPt] at hsemiP
    have := List.mem_takeWhile_imp hsemiP
    simp at this

theorem urlparse_components (l s rest : List Char)
    (hsp : splitScheme (whatwgClean l) = some (s, rest)) :
    (urlparseModel [] l).scheme = s
    ∧ (urlparseModel [] l).netloc = (splitNetloc rest).1
    ∧ (urlparseModel [] l).path = pathFrom s (splitNetloc rest).2 := by
  unfold urlparseModel urlsplitModel pathFrom
  simp only []
  rw [hsp]
  simp only []
  refine ⟨?_, ?_, ?_⟩ <;> (split <;> rfl)

theorem normalizeUrl_decomp (u : String) (s rest : List Char)
    (hsp : splitScheme (whatwgClean u.data) = some (s, rest)) :
    normalizeUrl u = ⟨s ++ ':' :: '/' :: '/' ::
      ((splitNetloc rest).1 ++ pathFrom s (splitNetloc rest).2)⟩ := by
  obtain ⟨h1, h2, h3⟩ := urlparse_components u.data s rest hsp
  unfold normalizeUrl
  simp only []
  rw [h1, h2, h3,
    List.append_assoc (s ++ [':', '/', '/']), List.append_assoc s [':', '/', '/']]
  rfl

/-! ## Claim theorems -/

/-- C1, counterexample. In the run over `netC1` the seed page links to the
on-domain URL `exOnX`, whose redirect resolution
(`filter_unique_destinations`) ends at `exEvil`; `exEvil` enters the next
frontier and then the PDF Link Set, although the target-domain marker
occurs neither in its normalized host nor anywhere in the URL. This
refutes "a URL whose normalized host does not contain the configured
target-domain marker never enters the Frontier, the Visited Set, or the
PDF Link Set". -/
theorem C1_counterexample :
    crawl cfgEx netC1 3 ⟨[], []⟩ [exHome] =
      Except.ok (⟨[exHome], [exEvil]⟩, [exHome])
    ∧ exEvil ∈ (CrawlState.mk [exHome] [exEvil]).all_pdf_links
    ∧ pyIn domainMarker ⟨(urlparseModel [] exEvil.data).netloc⟩ = false
    ∧ pyIn domainMarker exEvil = false :=
  ⟨rfl, List.mem_singleton.mpr rfl, rfl, rfl⟩

/-- C9, amended: normalization is idempotent on every URL from which
`urlparse` extracts a scheme (in particular on every absolute
`http(s)://...` URL, hence on every URL the crawler itself produces by
normalizing a fetched `response.url` or a joined link). On scheme-less
input the format string prepends `"://"` on every application, so the
unrestricted claim fails (see the counterexample). -/
theorem C9_amended (u : String) (h : (urlparseModel [] u.data).scheme ≠ []) :
    normalizeUrl (normalizeUrl u) = normalizeUrl u := by
  rcases hsp : splitScheme (whatwgClean u.data) with _ | ⟨s, rest⟩
  · exfalso
    apply h
    unfold urlparseModel urlsplitModel
    simp only []
    rw [hsp]
    simp only []
    split <;> rfl
  · obtain ⟨hv, hmap, hcol, hexist, hrest⟩ := splitScheme_props hsp
    obtain ⟨hN1, hN2, hR2⟩ := splitNetloc_props rest
    have hcleanl : ∀ c ∈ whatwgClean u.data, whatwgStripChar c = false := by
      intro c hc
      unfold whatwgClean at hc
      have := List.of_mem_filter hc
      simpa using this
    have hcs : ∀ c ∈ s, whatwgStripChar c = false := by
      intro c hc
      rcases hexist c hc with ⟨a, ha, rfl⟩
      exact pyLowerChar_strip (hcleanl a ha)
    have hcN : ∀ c ∈ (splitNetloc rest).1, whatwgStripChar c = false :=
      fun c hc => hcleanl c (hrest c (hN2 c hc))
    have hcP : ∀ c ∈ pathFrom s (splitNetloc rest).2, whatwgStripChar c = false := by
      intro c hc
      have h1 := pathFrom_subset_path0 s (splitNetloc rest).2 c hc
      have h2 : c ∈ (splitNetloc rest).2 :=
        List.takeWhile_subset _ (List.takeWhile_subset _ h1)
      exact hcleanl c (hrest c (hR2 c h2))
    obtain ⟨hPh, hPq⟩ := pathFrom_no_delims s (splitNetloc rest).2
    rw [normalizeUrl_decomp u s rest hsp]
    exact normalize_fixed s (splitNetloc rest).1 (pathFrom s (splitNetloc rest).2)
      hv hmap hcol hcs hcN hcP hN1 hPh hPq (pathFrom_fix s (splitNetloc rest).2)

/-- Witness for `C9_amended` at a concrete input. -/
theorem C9_witness :
    normalizeUrl (normalizeUrl "http://h/a?q=1") = normalizeUrl "http://h/a?q=1" :=
  C9_amended "http://h/a?q=1" (by decide)

/-- C10 (confirmed). Discovery classifies with a case-insensitive `.pdf`
suffix test while `validate_pdf_filename` demands the lowercase literal
`.pdf`: a basename ending in an upper- or mixed-case variant of `.pdf`
(lowercasing to `.pdf` but not equal to it) always fails validation, and
in `download_all_files` every record emitted for such a URL carries a
generated `tmp_fn_<N>.pdf` placeholder name, the file being written to
`<destination>/tmp_fn_<N>.pdf` rather than under the original basename. -/
theorem C10_case_mismatch (destination : String)
    (dl : String → String → DlOutcome) (fs0 urls : List String) (url : String)
    (h1 : pyEndsWith (pyLower (pyBasename url)) ".pdf" = true)
    (h2 : pyEndsWith (pyBasename url) ".pdf" = false) :
    validate_pdf_filename (pyBasename url) = false
    ∧ (∀ rec ∈ (download_all_files destination dl fs0 urls).results,
        rec.original_url = url →
        ∃ n : Nat, rec.file_name = "tmp_fn_" ++ toString n ++ ".pdf")
    ∧ (∀ pc ∈ (download_all_files destination dl fs0 urls).calls, pc.1 = url →
        ∃ n : Nat, pc.2 = destination ++ "/" ++ ("tmp_fn_" ++ toString n ++ ".pdf")) := by
  have hval := validate_false_of_case_mismatch (pyBasename url) h1 h2
  refine ⟨hval, ?_⟩
  unfold download_all_files
  exact downloadFold_placeholder destination dl url hval urls ⟨0, fs0, [], []⟩
    (fun rec hrec _ => absurd hrec (List.not_mem_nil rec))
    (fun pc hpc _ => absurd hpc (List.not_mem_nil pc))

/-- Witness for `C10_case_mismatch` at a concrete input. -/
theorem C10_witness : validate_pdf_filename (pyBasename "http://h/X.PDF") = false :=
  (C10_case_mismatch "pdf_files" (fun _ _ => ⟨true, true⟩) [] []
    "http://h/X.PDF" rfl rfl).1

/-- C1, amended: link extraction only emits URLs that contain the
target-domain marker as a substring of the full normalized URL (not
necessarily of the host); every URL the fetch loop adds to the round's
candidate set contains the marker. URLs without the marker can still enter
the Frontier — and hence the Visited Set and the PDF Link Set — through
the destination-resolution step, which replaces a candidate by its
redirect-final URL without re-checking the marker (see the
counterexample). -/
theorem C1_amended :
    (∀ (cfg : CrawlConfig) (traversed : List String) (anchors : List (Option String))
        (u : String), u ∈ extractLinks cfg traversed anchors →
        pyIn domainMarker u = true)
    ∧ (∀ (cfg : CrawlConfig) (net : Net) (l : List String) (acc acc' : RoundAcc)
        (u : String), fetchLoop cfg net acc l = Except.ok acc' → u ∈ acc'.updated →
        u ∈ acc.updated ∨ pyIn domainMarker u = true) := by
  constructor
  · intro cfg traversed anchors u hu
    unfold extractLinks at hu
    rcases extractFold_marker cfg traversed (pyDedupOpt anchors) [] u hu with h | h
    · exact absurd h (List.not_mem_nil u)
    · exact h
  · exact fun cfg net l acc acc' u h hu => fetchLoop_updated cfg net l acc acc' u h hu

/-- Witness for `C1_amended` at a concrete input. -/
theorem C1_amended_witness : pyIn domainMarker exOnX = true :=
  C1_amended.1 cfgEx [exHome] [some exOnX] exOnX
    (by rw [show extractLinks cfgEx [exHome] [some exOnX] = [exOnX] from rfl]
        exact List.mem_singleton.mpr rfl)

/-- C2, counterexample. In the round over `netC2` the seed page is visited
and links to the fresh URL `exOnX`, but redirect resolution maps `exOnX`
back to the seed page, so the next round's frontier is exactly `[exHome]`
while the Visited Set is also `[exHome]`: the Frontier and the Visited Set
are not disjoint at the start of the next round. -/
theorem C2_counterexample :
    crawlRoundCore cfgEx netC2 ⟨[], []⟩ [exHome] =
      Except.ok (⟨[exHome], []⟩, [exHome], [exHome])
    ∧ exHome ∈ (CrawlState.mk [exHome] []).traversed :=
  ⟨rfl, List.mem_singleton.mpr rfl⟩

/-- C4 (code bug). When the first fetched page returns HTTP 200 and
`BeautifulSoup` raises, the `except AttributeError` handler logs and falls
through to `soup.find_all("a")` with `soup` unbound; the resulting
`UnboundLocalError` is caught by none of the `requests` exception handlers
and aborts the whole run, contradicting "no parse error is fatal to the
overall run, which always reaches completion". -/
theorem C4_parse_crash :
    crawl cfgEx netC4 2 ⟨[], []⟩ [exHome] = Except.error CrawlErr.crash := rfl

/-- C5, counterexample. Under `Retry(total=3, ...)` a download URL answering
HTTP 503 on every attempt receives 4 HTTP attempts (one initial request
plus 3 retries) before `MaxRetryError`, refuting "at most 3 HTTP attempts
are made". -/
theorem C5_counterexample :
    session_get (fun _ => 503) = (4, none)
    ∧ 3 < (session_get (fun _ => 503)).1 :=
  ⟨rfl, by decide⟩

/-- C5, amended: the session built by `requests_retry_session`
(`Retry(total=3, ...)`) makes at most 4 HTTP attempts per download URL (one
initial attempt plus 3 retries); every attempt that is followed by another
attempt received a status in the forcelist {500, 502, 503, 504}; the
backoff before successive retries doubles (exponential backoff with factor
0.3); and a URL answering 503, 503, 200 succeeds after exactly 3 attempts,
yielding `download_file = True` and hence a Download Record with
`dl_status = True`. -/
theorem C5_amended :
    (∀ statuses : Nat → Nat, (session_get statuses).1 ≤ 4)
    ∧ (∀ (statuses : Nat → Nat) (i : Nat), i + 1 < (session_get statuses).1 →
        statusForcelist (statuses i) = true)
    ∧ session_get ex503 = (3, some 200)
    ∧ download_file ex503 true = true
    ∧ (∀ n : Nat, 2 ≤ n → get_backoff_time (n + 1) = 2 * get_backoff_time n) := by
  refine ⟨?_, ?_, rfl, rfl, ?_⟩
  · intro f
    have := sessionAttempts_le f 3 0
    simpa [session_get] using this
  · intro f i h
    exact sessionAttempts_forcelist f 3 0 i (Nat.zero_le i) h
  · intro n hn
    unfold get_backoff_time
    rw [if_neg (by omega), if_neg (by omega)]
    have h1 : n + 1 - 1 = n := by omega
    have h2 : n = (n - 1) + 1 := by omega
    rw [h1]
    conv_lhs => rw [h2]
    rw [pow_succ]
    ring

/-- Witness for `C5_amended` at a concrete input. -/
theorem C5_amended_witness : statusForcelist ((fun _ => 503) 0) = true :=
  C5_amended.2.1 (fun _ => 503) 0 (by decide)

/-- C6, counterexample. `re.match(r"^[a-zA-Z0-9_-]+\.pdf$", f)` also
matches `"a.pdf\n"` because `$` matches just before a trailing newline, so
`validate_pdf_filename` is not exactly "class characters followed by
`.pdf`, anchored at start and end" (`specPdfName`). -/
theorem C6_counterexample :
    validate_pdf_filename "a.pdf\n" = true ∧ specPdfName "a.pdf\n" = false :=
  ⟨rfl, rfl⟩

/-- C6, amended: `validate_pdf_filename` accepts a filename iff it is one
or more characters drawn from {letters, digits, underscore, hyphen}
followed by the literal `.pdf`, optionally followed by one trailing newline
(the `$` anchor of `re.match` matches before a final newline as well as at
the end). The per-run placeholder counter works as claimed: within one
`download_all_files` run the first invalid basename (`"report (1).pdf"`)
becomes `tmp_fn_0.pdf` and the second one becomes `tmp_fn_1.pdf`. -/
theorem C6_amended :
    (∀ f : String, validate_pdf_filename f = true ↔
        ∃ s : List Char, s ≠ [] ∧ s.all wordChar = true ∧
          (f.data = s ++ ".pdf".data ∨ f.data = s ++ ".pdf\n".data))
    ∧ (download_all_files "pdf_files" (fun _ _ => ⟨true, true⟩) []
        ["http://h/report (1).pdf", "http://h/b%c.pdf"]).results =
        [⟨"http://h/report (1).pdf", "tmp_fn_0.pdf", true⟩,
         ⟨"http://h/b%c.pdf", "tmp_fn_1.pdf", true⟩] :=
  ⟨validate_pdf_filename_iff, rfl⟩

/-- Witness for `C6_amended` at a concrete input. -/
theorem C6_amended_witness :
    ∃ s : List Char, s ≠ [] ∧ s.all wordChar = true ∧
      (("report.pdf" : String).data = s ++ ".pdf".data
        ∨ ("report.pdf" : String).data = s ++ ".pdf\n".data) :=
  (C6_amended.1 "report.pdf").mp rfl

/-- C7 (confirmed). In any round, consider the working set remaining after
the denylist filter and the visited filter. Every URL of that set that is
a normalized URL whose path component ends in `.pdf` (case-insensitively)
is in `all_pdf_links` after the PDF-collection loop (added there if not
already present), and is not in the working set that the fetch loop
iterates over — it is never fetched as a page. -/
theorem C7_pdf_classification (cfg : CrawlConfig) (st : CrawlState)
    (frontier : List String) (u v : String)
    (hn : u = normalizeUrl v)
    (hp : pyEndsWith (pyLower ⟨(urlparseModel [] v.data).path⟩) ".pdf" = true)
    (hm : u ∈ pruneVisited st.traversed (pruneDenylist cfg.removal_strs frontier)) :
    u ∈ collectPdfs st.all_pdf_links
        (pruneVisited st.traversed (pruneDenylist cfg.removal_strs frontier))
    ∧ u ∉ removePdf
        (collectPdfs st.all_pdf_links
          (pruneVisited st.traversed (pruneDenylist cfg.removal_strs frontier)))
        (pruneVisited st.traversed (pruneDenylist cfg.removal_strs frontier)) := by
  have hend : pyEndsWith (pyLower u) ".pdf" = true := by
    subst hn
    rw [pyEndsWith_iff] at hp ⊢
    unfold normalizeUrl
    simp only [pyLower, List.map_append]
    exact hp.trans (List.suffix_append _ _)
  have hin : u ∈ collectPdfs st.all_pdf_links
      (pruneVisited st.traversed (pruneDenylist cfg.removal_strs frontier)) :=
    collectFold_mem _ _ _ hm hend
  exact ⟨hin, removePdf_not_mem _ _ _ hin⟩

/-- Witness for `C7_pdf_classification` at a concrete input. -/
theorem C7_witness :
    exPdf ∈ collectPdfs (CrawlState.mk [] []).all_pdf_links
        (pruneVisited (CrawlState.mk [] []).traversed
          (pruneDenylist cfgEx.removal_strs [exPdf]))
    ∧ exPdf ∉ removePdf
        (collectPdfs (CrawlState.mk [] []).all_pdf_links
          (pruneVisited (CrawlState.mk [] []).traversed
            (pruneDenylist cfgEx.removal_strs [exPdf])))
        (pruneVisited (CrawlState.mk [] []).traversed
          (pruneDenylist cfgEx.removal_strs [exPdf])) :=
  C7_pdf_classification cfgEx ⟨[], []⟩ [exPdf] exPdf exPdf rfl rfl (by decide)

/-- C8, counterexample. The denylist entry `"A"` occurs case-insensitively
in the URL `"xAy"`, yet the URL is kept: `contains_any` lowercases only the
URL, not the denylist entries, so an entry containing an uppercase letter
never matches. -/
theorem C8_counterexample :
    contains_any (pyLower "xAy") ["A"] = false
    ∧ pyIn (pyLower "A") (pyLower "xAy") = true
    ∧ pruneDenylist ["A"] ["xAy"] = ["xAy"] :=
  ⟨rfl, rfl, rfl⟩

/-- C9, counterexample. Normalization is not idempotent on scheme-less
input: the format string prepends `"://"` on every application, e.g.
`normalizeUrl "" = "://"` but `normalizeUrl "://" = "://://"`; in
particular the already-normalized URL `"://"` is not returned unchanged. -/
theorem C9_counterexample :
    normalizeUrl "" = "://"
    ∧ normalizeUrl (normalizeUrl "") ≠ normalizeUrl "" := by
  refine ⟨rfl, ?_⟩
  intro h
  have hlen : (normalizeUrl (normalizeUrl "")).data.length = (normalizeUrl "").data.length :=
    congrArg (fun s => s.data.length) h
  exact absurd hlen (by decide)

/-- C2, amended: the Visited Set only grows (the final traversed list
extends the initial one by exactly the URLs fetched, in order), no URL is
fetched twice in a run that starts from a duplicate-free Visited Set, and
the round's working set after the visited-filtering step is disjoint from
the Visited Set. (The raw frontier handed to a round is *not* always
disjoint from the Visited Set — see the counterexample — but such URLs are
filtered out before any fetch.) -/
theorem C2_amended (cfg : CrawlConfig) (net : Net) (fuel : Nat) (st st' : CrawlState)
    (frontier log : List String)
    (h : crawl cfg net fuel st frontier = Except.ok (st', log)) :
    st'.traversed = st.traversed ++ log
    ∧ (st.traversed.Nodup → st'.traversed.Nodup ∧ log.Nodup)
    ∧ ∀ (tr l : List String) (u : String), u ∈ pruneVisited tr l → u ∉ tr := by
  obtain ⟨h1, h2⟩ := crawl_inv cfg net fuel st frontier st' log h
  refine ⟨h1, fun hn => ⟨h2 hn, ?_⟩, ?_⟩
  · have hnd := h2 hn
    rw [h1] at hnd
    exact hnd.of_append_right
  · intro tr l u hu
    unfold pruneVisited at hu
    rw [mem_pyDedup, List.mem_filter] at hu
    have hb := hu.2
    rw [Bool.not_eq_true'] at hb
    exact containsEqFalse.mp hb

/-- Witness for `C2_amended` at a concrete run. -/
theorem C2_amended_witness :
    (CrawlState.mk [exHome] [exEvil]).traversed =
      (CrawlState.mk [] []).traversed ++ [exHome] :=
  (C2_amended cfgEx netC1 3 ⟨[], []⟩ ⟨[exHome], [exEvil]⟩ [exHome] [exHome] rfl).1

/-- C8, amended: the denylist filter removes a URL (before any network
access) iff some denylist entry occurs verbatim in the lowercased URL.
Consequently two URLs with the same lowercasing are filtered identically,
but the denylist entries themselves are matched case-sensitively: an entry
containing an uppercase letter never matches any URL. -/
theorem C8_amended :
    (∀ (removal_strs urls : List String) (u : String),
        u ∈ pruneDenylist removal_strs urls ↔
          u ∈ urls ∧ ∀ d ∈ removal_strs, pyIn d (pyLower u) = false)
    ∧ (∀ (removal_strs : List String) (u v : String), pyLower u = pyLower v →
        contains_any (pyLower u) removal_strs = contains_any (pyLower v) removal_strs)
    ∧ (∀ (d u : String) (c : Char), c ∈ d.data → pyLowerChar c ≠ c →
        pyIn d (pyLower u) = false) := by
  refine ⟨?_, ?_, ?_⟩
  · intro removal_strs urls u
    unfold pruneDenylist
    rw [mem_pyDedup, List.mem_filter]
    simp only [contains_any, Bool.not_eq_true', List.any_eq_false]
    constructor
    · rintro ⟨h1, h2⟩
      exact ⟨h1, fun d hd => by simpa using h2 d hd⟩
    · rintro ⟨h1, h2⟩
      exact ⟨h1, fun d hd => by simpa using h2 d hd⟩
  · intro removal_strs u v huv
    rw [huv]
  · intro d u c hc hne
    by_contra hcon
    rw [Bool.not_eq_false] at hcon
    have hmem : c ∈ (pyLower u).data := (pyIn_iff.mp hcon).subset hc
    simp only [pyLower, List.mem_map] at hmem
    rcases hmem with ⟨a, _, ha⟩
    exact hne (pyLowerChar_fix ha)

/-- Witness for `C8_amended` at a concrete input. -/
theorem C8_amended_witness :
    "b" ∈ (["b"] : List String)
    ∧ ∀ d ∈ (["a"] : List String), pyIn d (pyLower "b") = false :=
  (C8_amended.1 ["a"] ["b"] "b").mp (by decide)

/-- C3, counterexample. The destination directory already holds
`tmp_fn_0.pdf`; the URL's basename `"a b.pdf"` is invalid, so its resolved
filename is `tmp_fn_0.pdf` — a file that exists at the destination path.
The claim demands no download request and no record, but the code checks
only `pdf_files/<raw basename>`: it issues the download (overwriting the
existing path) and emits a record. -/
theorem C3_counterexample :
    download_all_files "pdf_files" (fun _ _ => ⟨true, true⟩)
        ["pdf_files/tmp_fn_0.pdf"] ["http://h/a b.pdf"] =
      ⟨1, ["pdf_files/tmp_fn_0.pdf", "pdf_files/tmp_fn_0.pdf"],
       [⟨"http://h/a b.pdf", "tmp_fn_0.pdf", true⟩],
       [("http://h/a b.pdf", "pdf_files/tmp_fn_0.pdf")]⟩
    ∧ validate_pdf_filename (pyBasename "http://h/a b.pdf") = false
    ∧ ("pdf_files" ++ "/" ++ "tmp_fn_0.pdf") ∈ (["pdf_files/tmp_fn_0.pdf"] : List String) :=
  ⟨rfl, rfl, List.mem_singleton.mpr rfl⟩

/-- C3, amended: the skip test of `download_all_files` uses the literal
directory `pdf_files` and the raw basename (before
validation/placeholder-replacement). When `pdf_files/<raw basename>`
already exists, the URL is skipped entirely: no download call is issued,
no record is emitted, and the state is untouched. -/
theorem C3_amended (destination : String) (dl : String → String → DlOutcome)
    (st : DlState) (url : String)
    (h : st.fs.contains ("pdf_files/" ++ pyBasename url) = true) :
    downloadStep destination dl st url = st := by
  unfold downloadStep
  simp only [h, if_true]

/-- Witness for `C3_amended` at a concrete input. -/
theorem C3_amended_witness :
    downloadStep "pdf_files" (fun _ _ => ⟨true, true⟩)
        ⟨0, ["pdf_files/a.pdf"], [], []⟩ "http://h/a.pdf" =
      ⟨0, ["pdf_files/a.pdf"], [], []⟩ :=
  C3_amended "pdf_files" (fun _ _ => ⟨true, true⟩)
    ⟨0, ["pdf_files/a.pdf"], [], []⟩ "http://h/a.pdf" rfl

end PDFCrawler
